import Mathlib

/-!
Verification of `encrypt.py` from the cryptopuck repository.

Bytes are modelled as `Nat` (with `< 256` stated where it matters), byte
strings as `List Nat`.  The AES block operation under a fixed key is
abstracted as a function `E : List Nat → List Nat` on 16-byte blocks;
`AES.new(key, AES.MODE_CBC, iv)` chains blocks explicitly below, exactly
as the PyCrypto CBC object does across successive `encrypt` calls.
-/

/-- Bytewise xor of two equal-length byte lists (the CBC chaining step). -/
def zipXor (a b : List Nat) : List Nat :=
  List.zipWith (fun x y => x ^^^ y) a b

/-- Recursion core of `readChunks`; the fuel argument is instantiated with
the length of the list, which bounds the number of loop iterations as soon
as the chunk size is positive. -/
def readChunksGo (c : Nat) : Nat → List Nat → List (List Nat)
  | _, [] => []
  | 0, s => [s]
  | fuel + 1, x :: xs =>
    (x :: xs).take c :: readChunksGo c fuel ((x :: xs).drop c)

/-- `infile.read(chunksize)` loop of `encrypt_file`: splits `data` into
successive chunks of at most `c` bytes.  For `c = 0` the source loop would
not terminate; the claims only concern `0 < c`. -/
def readChunks (c : Nat) (data : List Nat) : List (List Nat) :=
  readChunksGo c data.length data

/-- `chunk += ' '.encode("UTF-8") * (16 - len(chunk) % 16)` applied when
`len(chunk) % 16 != 0` (lines 44-45 of encrypt.py); the padding byte is
the space character 0x20 = 32. -/
def pad16 (chunk : List Nat) : List Nat :=
  chunk ++ List.replicate ((16 - chunk.length % 16) % 16) 32

/-- Split a block-aligned byte string into 16-byte cipher blocks. -/
def toBlocks16 (data : List Nat) : List (List Nat) :=
  readChunks 16 data

/-- CBC encryption of a list of 16-byte blocks with previous ciphertext
block `prev` (initially the IV), block cipher `E`. -/
def cbcEnc (E : List Nat → List Nat) (prev : List Nat) :
    List (List Nat) → List (List Nat)
  | [] => []
  | b :: bs =>
    let c := E (zipXor prev b)
    c :: cbcEnc E c bs

/-- The `while True` loop of `encrypt_file`: each chunk is padded to a
multiple of 16 and encrypted by the stateful CBC object, whose chaining
state after a call is the last ciphertext block produced so far. -/
def encryptLoop (E : List Nat → List Nat) :
    List Nat → List (List Nat) → List Nat
  | _, [] => []
  | prev, ch :: rest =>
    let cts := cbcEnc E prev (toBlocks16 (pad16 ch))
    cts.flatten ++ encryptLoop E (cts.getLastD prev) rest

/-- `struct.pack` of an unsigned little-endian integer on `k` bytes
 (`k = 8` gives the `<Q` format used by `encrypt_file`). -/
def leBytes : Nat → Nat → List Nat
  | 0, _ => []
  | k + 1, n => n % 256 :: leBytes k (n / 256)

/-- Little-endian read-back of a byte list (used by the modelled
decryption direction to parse the length header). -/
def readLe (bs : List Nat) : Nat :=
  bs.foldr (fun b acc => b + 256 * acc) 0

/-- `encrypt_file` (lines 31-47 of encrypt.py), as the byte string written
to the output file: 8-byte little-endian cleartext length, the 16-byte IV,
then the CBC ciphertext of the space-padded chunks. -/
def encrypt_file (E : List Nat → List Nat) (iv : List Nat)
    (chunksize : Nat) (data : List Nat) : List Nat :=
  leBytes 8 data.length ++ iv ++ encryptLoop E iv (readChunks chunksize data)

/-- CBC decryption of a list of 16-byte ciphertext blocks with previous
ciphertext block `prev` (initially the IV), block decipher `D`. -/
def cbcDec (D : List Nat → List Nat) : List Nat → List (List Nat) → List Nat
  | _, [] => []
  | prev, c :: cs => zipXor prev (D c) ++ cbcDec D c cs

/-- Modelled from the spec: the decryption counterpart `decryptStream` is
not present in src/ (the source exposes only the forward direction); per
spec section 4.1 it reads the 8-byte little-endian length header, the
16-byte IV, CBC-decrypts the remaining block-aligned ciphertext, and
truncates the decrypted output to the header-declared length; it fails on
input shorter than header plus IV or on non-block-aligned ciphertext. -/
def decryptStream (D : List Nat → List Nat) (record : List Nat) :
    Option (List Nat) :=
  if record.length < 24 then none
  else
    let L := readLe (record.take 8)
    let iv := (record.drop 8).take 16
    let ct := record.drop 24
    if ct.length % 16 = 0 then some ((cbcDec D iv (toBlocks16 ct)).take L)
    else none

/-! ### Basic lemmas about the chunked reader -/

theorem readChunksGo_congr (c : Nat) (hc : c ≠ 0) :
    ∀ f₁ f₂ d, d.length ≤ f₁ → d.length ≤ f₂ →
      readChunksGo c f₁ d = readChunksGo c f₂ d := by
  intro f₁
  induction f₁ with
  | zero =>
    intro f₂ d h₁ _
    have hd : d = [] := List.eq_nil_of_length_eq_zero (Nat.le_zero.mp h₁)
    subst hd
    cases f₂ <;> rfl
  | succ f ih =>
    intro f₂ d h₁ h₂
    cases d with
    | nil => cases f₂ <;> rfl
    | cons x xs =>
      cases f₂ with
      | zero => simp at h₂
      | succ f₂' =>
        simp only [readChunksGo]
        have hdrop : ((x :: xs).drop c).length ≤ f := by
          simp only [List.length_drop, List.length_cons]
          simp only [List.length_cons] at h₁
          omega
        have hdrop' : ((x :: xs).drop c).length ≤ f₂' := by
          simp only [List.length_drop, List.length_cons]
          simp only [List.length_cons] at h₂
          omega
        rw [ih _ _ hdrop hdrop']

theorem readChunks_nil (c : Nat) : readChunks c [] = [] := rfl

theorem readChunks_cons (c : Nat) (hc : c ≠ 0) (d : List Nat) (hd : d ≠ []) :
    readChunks c d = d.take c :: readChunks c (d.drop c) := by
  cases d with
  | nil => exact absurd rfl hd
  | cons x xs =>
    show readChunksGo c (xs.length + 1) (x :: xs) = _
    simp only [readChunksGo]
    rw [readChunksGo_congr c hc xs.length ((x :: xs).drop c).length]
    · rfl
    · simp only [List.length_drop, List.length_cons]; omega
    · exact le_rfl

theorem readChunks_flatten (c : Nat) (hc : c ≠ 0) (d : List Nat) :
    (readChunks c d).flatten = d := by
  have key : ∀ n d, List.length d ≤ n → (readChunks c d).flatten = d := by
    intro n
    induction n with
    | zero =>
      intro d h
      have : d = [] := List.eq_nil_of_length_eq_zero (Nat.le_zero.mp h)
      subst this; rfl
    | succ n ih =>
      intro d h
      by_cases hd : d = []
      · subst hd; rfl
      · rw [readChunks_cons c hc d hd]
        have hlen : 0 < d.length := List.length_pos.mpr hd
        have : (d.drop c).length ≤ n := by
          simp only [List.length_drop]; omega
        simp only [List.flatten_cons, ih _ this, List.take_append_drop]
  exact key d.length d le_rfl

/-! ### Length bookkeeping for the padding and the CBC layers -/

theorem pad16_length (ch : List Nat) :
    (pad16 ch).length = ((ch.length + 15) / 16) * 16 := by
  simp only [pad16, List.length_append, List.length_replicate]
  omega

theorem pad16_mod (ch : List Nat) : (pad16 ch).length % 16 = 0 := by
  simp only [pad16, List.length_append, List.length_replicate]
  omega

theorem readChunks_pad_flatten (c : Nat) (hc : c ≠ 0) (hc16 : c % 16 = 0)
    (d : List Nat) :
    ((readChunks c d).map pad16).flatten =
      d ++ List.replicate ((16 - d.length % 16) % 16) 32 := by
  have key : ∀ n d, List.length d ≤ n →
      ((readChunks c d).map pad16).flatten =
        d ++ List.replicate ((16 - d.length % 16) % 16) 32 := by
    intro n
    induction n with
    | zero =>
      intro d h
      have : d = [] := List.eq_nil_of_length_eq_zero (Nat.le_zero.mp h)
      subst this
      simp [readChunks_nil]
    | succ n ih =>
      intro d h
      by_cases hd : d = []
      · subst hd; simp [readChunks_nil]
      · rw [readChunks_cons c hc d hd]
        have hlen : 0 < d.length := List.length_pos.mpr hd
        have hrec : (d.drop c).length ≤ n := by
          simp only [List.length_drop]; omega
        simp only [List.map_cons, List.flatten_cons, ih _ hrec]
        by_cases hcase : d.length ≤ c
        · have hdrop : d.drop c = [] := List.drop_eq_nil_iff.mpr hcase
          have htake : d.take c = d := List.take_of_length_le hcase
          rw [hdrop, htake]
          simp [pad16]
        · have htake : (d.take c).length = c := by
            simp only [List.length_take]; omega
          have hpadtake : pad16 (d.take c) = d.take c := by
            simp only [pad16, htake]
            have : (16 - c % 16) % 16 = 0 := by omega
            simp [this]
          rw [hpadtake]
          have hmod : (d.drop c).length % 16 = d.length % 16 := by
            simp only [List.length_drop]; omega
          rw [hmod, ← List.append_assoc, List.take_append_drop]
  exact key d.length d le_rfl

theorem zipXor_length (a b : List Nat) :
    (zipXor a b).length = min a.length b.length := by
  simp [zipXor]

theorem zipXor_self_inverse :
    ∀ a b : List Nat, a.length = b.length → zipXor a (zipXor a b) = b := by
  intro a
  induction a with
  | nil =>
    intro b h
    have : b = [] := List.eq_nil_of_length_eq_zero h.symm
    subst this; rfl
  | cons x xs ih =>
    intro b h
    cases b with
    | nil => simp at h
    | cons y ys =>
      simp only [zipXor, List.zipWith_cons_cons] at *
      rw [Nat.xor_cancel_left]
      have := ih ys (by simpa using h)
      simp only [zipXor] at this
      rw [this]

theorem cbcEnc_count (E : List Nat → List Nat) :
    ∀ bs prev, (cbcEnc E prev bs).length = bs.length := by
  intro bs
  induction bs with
  | nil => intro prev; rfl
  | cons b bs ih => intro prev; simp only [cbcEnc, List.length_cons, ih]

theorem cbcEnc_blocks (E : List Nat → List Nat)
    (hE : ∀ b, b.length = 16 → (E b).length = 16) :
    ∀ bs prev, prev.length = 16 → (∀ b ∈ bs, b.length = 16) →
      ∀ cb ∈ cbcEnc E prev bs, cb.length = 16 := by
  intro bs
  induction bs with
  | nil => intro prev _ _ cb hcb; simp [cbcEnc] at hcb
  | cons b bs ih =>
    intro prev hprev hbs cb hcb
    have hb : b.length = 16 := hbs b (List.mem_cons_self b bs)
    have hc : (E (zipXor prev b)).length = 16 := by
      apply hE
      simp [zipXor_length, hprev, hb]
    simp only [cbcEnc, List.mem_cons] at hcb
    rcases hcb with h | h
    · rw [h]; exact hc
    · exact ih (E (zipXor prev b)) hc
        (fun x hx => hbs x (List.mem_cons_of_mem _ hx)) cb h

theorem flatten_length_16 :
    ∀ l : List (List Nat), (∀ b ∈ l, b.length = 16) →
      l.flatten.length = 16 * l.length := by
  intro l
  induction l with
  | nil => intro _; rfl
  | cons b bs ih =>
    intro h
    simp only [List.flatten_cons, List.length_append, List.length_cons,
      h b (List.mem_cons_self b bs), ih (fun x hx => h x (List.mem_cons_of_mem _ hx))]
    ring

theorem mem_getLastD (l : List (List Nat)) (d : List Nat) :
    l.getLastD d = d ∨ l.getLastD d ∈ l := by
  induction l generalizing d with
  | nil => exact Or.inl rfl
  | cons a as ih =>
    have hdef : (a :: as).getLastD d = as.getLastD a := List.getLastD_cons d a as
    rcases ih a with h | h
    · right; rw [hdef, h]; exact List.mem_cons_self a as
    · right; rw [hdef]; exact List.mem_cons_of_mem a h

theorem toBlocks16_blocks (d : List Nat) (hd : d.length % 16 = 0) :
    ∀ b ∈ toBlocks16 d, b.length = 16 := by
  have key : ∀ n d, List.length d ≤ n → List.length d % 16 = 0 →
      ∀ b ∈ toBlocks16 d, b.length = 16 := by
    intro n
    induction n with
    | zero =>
      intro d h _ b hb
      have : d = [] := List.eq_nil_of_length_eq_zero (Nat.le_zero.mp h)
      subst this
      simp [toBlocks16, readChunks_nil] at hb
    | succ n ih =>
      intro d h hmod b hb
      by_cases hdn : d = []
      · subst hdn; simp [toBlocks16, readChunks_nil] at hb
      · have hlen : 0 < d.length := List.length_pos.mpr hdn
        have h16 : 16 ≤ d.length := by omega
        unfold toBlocks16 at hb
        rw [readChunks_cons 16 (by omega) d hdn] at hb
        simp only [List.mem_cons] at hb
        rcases hb with hb | hb
        · rw [hb]; simp only [List.length_take]; omega
        · exact ih (d.drop 16)
            (by simp only [List.length_drop]; omega)
            (by simp only [List.length_drop]; omega) b hb
  exact key d.length d le_rfl hd

theorem encryptLoop_length (E : List Nat → List Nat)
    (hE : ∀ b, b.length = 16 → (E b).length = 16) :
    ∀ chs prev, prev.length = 16 →
      (encryptLoop E prev chs).length = ((chs.map pad16).flatten).length := by
  intro chs
  induction chs with
  | nil => intro prev _; rfl
  | cons ch rest ih =>
    intro prev hprev
    have hblocks : ∀ b ∈ toBlocks16 (pad16 ch), b.length = 16 :=
      toBlocks16_blocks (pad16 ch) (pad16_mod ch)
    have hcts : ∀ cb ∈ cbcEnc E prev (toBlocks16 (pad16 ch)), cb.length = 16 :=
      cbcEnc_blocks E hE (toBlocks16 (pad16 ch)) prev hprev hblocks
    have hlast : ((cbcEnc E prev (toBlocks16 (pad16 ch))).getLastD prev).length = 16 := by
      rcases mem_getLastD (cbcEnc E prev (toBlocks16 (pad16 ch))) prev with h | h
      · rw [h]; exact hprev
      · exact hcts _ h
    simp only [encryptLoop, List.map_cons, List.flatten_cons, List.length_append,
      ih _ hlast]
    congr 1
    rw [flatten_length_16 _ hcts, cbcEnc_count, ← flatten_length_16 _ hblocks]
    have : (toBlocks16 (pad16 ch)).flatten = pad16 ch :=
      readChunks_flatten 16 (by omega) (pad16 ch)
    rw [this]

/-! ### The little-endian length header -/

theorem leBytes_length : ∀ (k n : Nat), (leBytes k n).length = k := by
  intro k
  induction k with
  | zero => intro n; rfl
  | succ k ih => intro n; simp only [leBytes, List.length_cons, ih]

theorem readLe_leBytes : ∀ (k n : Nat), n < 256 ^ k →
    readLe (leBytes k n) = n := by
  intro k
  induction k with
  | zero =>
    intro n h
    simp only [pow_zero, Nat.lt_one_iff] at h
    subst h; rfl
  | succ k ih =>
    intro n h
    have hdiv : n / 256 < 256 ^ k := by
      apply (Nat.div_lt_iff_lt_mul (by norm_num)).mpr
      calc n < 256 ^ (k + 1) := h
        _ = 256 ^ k * 256 := by ring
    show n % 256 + 256 * readLe (leBytes k (n / 256)) = n
    rw [ih _ hdiv]
    omega

/-- C1: for every key of a supported AES length (the per-block AES
operation under that key is abstracted as `E`, a length-preserving map on
16-byte blocks), every 16-byte IV and every input of size `L` read with a
chunk size that is a positive multiple of 16, `encrypt_file` writes
exactly an 8-byte little-endian unsigned encoding of `L` (`readLe`
recovers `L`), then the 16-byte IV, then a ciphertext of `ceil(L/16)*16`
bytes; for `L = 0` that formula gives an empty ciphertext. -/
theorem claim_C1_encrypted_file_format (E : List Nat → List Nat)
    (iv : List Nat) (c : Nat) (data : List Nat)
    (hE : ∀ b, b.length = 16 → (E b).length = 16)
    (hiv : iv.length = 16) (hc : 0 < c) (hc16 : c % 16 = 0)
    (hL : data.length < 2 ^ 64) :
    ∃ ct, encrypt_file E iv c data = leBytes 8 data.length ++ iv ++ ct ∧
      (leBytes 8 data.length).length = 8 ∧
      readLe (leBytes 8 data.length) = data.length ∧
      ct.length = ((data.length + 15) / 16) * 16 := by
  refine ⟨encryptLoop E iv (readChunks c data), rfl, leBytes_length 8 _, ?_, ?_⟩
  · apply readLe_leBytes
    have : (256 : Nat) ^ 8 = 2 ^ 64 := by norm_num
    omega
  · rw [encryptLoop_length E hE _ iv hiv,
      readChunks_pad_flatten c (by omega) hc16 data]
    simp only [List.length_append, List.length_replicate]
    omega

theorem claim_C1_witness :
    ∃ ct, encrypt_file (fun b => b) (List.replicate 16 0) 16 [1, 2, 3] =
        leBytes 8 ([1, 2, 3] : List Nat).length ++ List.replicate 16 0 ++ ct ∧
      (leBytes 8 ([1, 2, 3] : List Nat).length).length = 8 ∧
      readLe (leBytes 8 ([1, 2, 3] : List Nat).length) =
        ([1, 2, 3] : List Nat).length ∧
      ct.length = ((([1, 2, 3] : List Nat).length + 15) / 16) * 16 :=
  claim_C1_encrypted_file_format (fun b => b) (List.replicate 16 0) 16
    [1, 2, 3] (fun _ h => h) (by simp) (by norm_num) (by norm_num)
    (by norm_num)

/-! ### Inverting the cipher layer (round trip) -/

theorem toBlocks16_flatten (d : List Nat) : (toBlocks16 d).flatten = d :=
  readChunks_flatten 16 (by omega) d

theorem toBlocks16_cons (b rest : List Nat) (hb : b.length = 16) :
    toBlocks16 (b ++ rest) = b :: toBlocks16 rest := by
  unfold toBlocks16
  have hne : b ++ rest ≠ [] := by
    intro h
    have := congrArg List.length h
    simp [hb] at this
  rw [readChunks_cons 16 (by omega) _ hne, List.take_left' hb,
    List.drop_left' hb]

theorem toBlocks16_flatten_append :
    ∀ (l : List (List Nat)) (rest : List Nat),
      (∀ b ∈ l, b.length = 16) →
      toBlocks16 (l.flatten ++ rest) = l ++ toBlocks16 rest := by
  intro l
  induction l with
  | nil => intro rest _; simp
  | cons b bs ih =>
    intro rest h
    have hb : b.length = 16 := h b (List.mem_cons_self b bs)
    simp only [List.flatten_cons, List.append_assoc]
    rw [toBlocks16_cons b _ hb,
      ih rest (fun x hx => h x (List.mem_cons_of_mem _ hx))]
    rfl

theorem cbcDec_cbcEnc_append (E D : List Nat → List Nat)
    (hE : ∀ b, b.length = 16 → (E b).length = 16)
    (hD : ∀ b, b.length = 16 → D (E b) = b) :
    ∀ bs prev k, prev.length = 16 → (∀ b ∈ bs, b.length = 16) →
      cbcDec D prev (cbcEnc E prev bs ++ k) =
        bs.flatten ++ cbcDec D ((cbcEnc E prev bs).getLastD prev) k := by
  intro bs
  induction bs with
  | nil =>
    intro prev k _ _
    simp [cbcEnc, List.getLastD_nil]
  | cons b bs ih =>
    intro prev k hprev hbs
    have hb : b.length = 16 := hbs b (List.mem_cons_self b bs)
    have hzip : (zipXor prev b).length = 16 := by
      simp [zipXor_length, hprev, hb]
    have hc : (E (zipXor prev b)).length = 16 := hE _ hzip
    simp only [cbcEnc, List.cons_append, cbcDec]
    rw [hD _ hzip, zipXor_self_inverse prev b (by rw [hprev, hb])]
    simp only [List.append_eq]
    rw [ih (E (zipXor prev b)) k hc
        (fun x hx => hbs x (List.mem_cons_of_mem _ hx)),
      List.getLastD_cons, List.flatten_cons, List.append_assoc]

theorem cbcDec_encryptLoop (E D : List Nat → List Nat)
    (hE : ∀ b, b.length = 16 → (E b).length = 16)
    (hD : ∀ b, b.length = 16 → D (E b) = b) :
    ∀ chs prev, prev.length = 16 →
      cbcDec D prev (toBlocks16 (encryptLoop E prev chs)) =
        (chs.map pad16).flatten := by
  intro chs
  induction chs with
  | nil => intro prev _; simp [encryptLoop, toBlocks16, readChunks_nil, cbcDec]
  | cons ch rest ih =>
    intro prev hprev
    have hblocks : ∀ b ∈ toBlocks16 (pad16 ch), b.length = 16 :=
      toBlocks16_blocks (pad16 ch) (pad16_mod ch)
    have hcts : ∀ cb ∈ cbcEnc E prev (toBlocks16 (pad16 ch)), cb.length = 16 :=
      cbcEnc_blocks E hE (toBlocks16 (pad16 ch)) prev hprev hblocks
    have hlast :
        ((cbcEnc E prev (toBlocks16 (pad16 ch))).getLastD prev).length = 16 := by
      rcases mem_getLastD (cbcEnc E prev (toBlocks16 (pad16 ch))) prev with h | h
      · rw [h]; exact hprev
      · exact hcts _ h
    simp only [encryptLoop, List.map_cons, List.flatten_cons]
    rw [toBlocks16_flatten_append _ _ hcts,
      cbcDec_cbcEnc_append E D hE hD _ prev _ hprev hblocks,
      toBlocks16_flatten (pad16 ch), ih _ hlast]

theorem flatten_pad_mod (chs : List (List Nat)) :
    ((chs.map pad16).flatten).length % 16 = 0 := by
  induction chs with
  | nil => rfl
  | cons ch rest ih =>
    simp only [List.map_cons, List.flatten_cons, List.length_append]
    have := pad16_mod ch
    omega

/-- C2: for every key of a supported AES length (the AES block operation
is abstracted as `E` with block inverse `D`) and every byte string `B`
(including the empty one and ones whose trailing bytes equal the padding
value), decrypting the record produced by the encryption direction —
reading the 8-byte length header and IV, CBC-decrypting the ciphertext,
truncating to the header-declared length — reconstructs `B` exactly:
`decryptStream D (encrypt_file E iv c B) = some B`. -/
theorem claim_C2_roundtrip (E D : List Nat → List Nat) (iv : List Nat)
    (c : Nat) (data : List Nat)
    (hE : ∀ b, b.length = 16 → (E b).length = 16)
    (hD : ∀ b, b.length = 16 → D (E b) = b)
    (hiv : iv.length = 16) (hc : 0 < c) (hc16 : c % 16 = 0)
    (hL : data.length < 2 ^ 64) :
    decryptStream D (encrypt_file E iv c data) = some data := by
  have hhdr : (leBytes 8 data.length).length = 8 := leBytes_length 8 _
  have hCTlen : (encryptLoop E iv (readChunks c data)).length =
      ((readChunks c data).map pad16).flatten.length :=
    encryptLoop_length E hE _ iv hiv
  have hCTmod : (encryptLoop E iv (readChunks c data)).length % 16 = 0 := by
    rw [hCTlen]; exact flatten_pad_mod _
  have hpre : (leBytes 8 data.length ++ iv).length = 24 := by
    simp [hhdr, hiv]
  have e3 : (encrypt_file E iv c data).drop 24 =
      encryptLoop E iv (readChunks c data) := by
    show ((leBytes 8 data.length ++ iv) ++
      encryptLoop E iv (readChunks c data)).drop 24 = _
    exact List.drop_left' hpre
  have e1 : (encrypt_file E iv c data).take 8 = leBytes 8 data.length := by
    show ((leBytes 8 data.length ++ iv) ++
      encryptLoop E iv (readChunks c data)).take 8 = _
    rw [List.append_assoc]
    exact List.take_left' hhdr
  have e2 : ((encrypt_file E iv c data).drop 8).take 16 = iv := by
    show (((leBytes 8 data.length ++ iv) ++
      encryptLoop E iv (readChunks c data)).drop 8).take 16 = _
    rw [List.append_assoc, List.drop_left' hhdr]
    exact List.take_left' hiv
  have hlen : ¬ (encrypt_file E iv c data).length < 24 := by
    show ¬ ((leBytes 8 data.length ++ iv) ++
      encryptLoop E iv (readChunks c data)).length < 24
    simp only [List.length_append, hpre]
    omega
  have hL256 : data.length < 256 ^ 8 := by
    have : (256 : Nat) ^ 8 = 2 ^ 64 := by norm_num
    omega
  unfold decryptStream
  rw [if_neg hlen]
  simp only [e1, e2, e3, hCTmod, if_pos, readLe_leBytes 8 _ hL256]
  rw [cbcDec_encryptLoop E D hE hD _ iv hiv,
    readChunks_pad_flatten c (by omega) hc16 data,
    List.take_left' rfl]

theorem claim_C2_witness :
    decryptStream (fun b => b)
        (encrypt_file (fun b => b) (List.replicate 16 0) 16 [1, 2, 3]) =
      some [1, 2, 3] :=
  claim_C2_roundtrip (fun b => b) (fun b => b) (List.replicate 16 0) 16
    [1, 2, 3] (fun _ h => h) (fun _ _ => rfl) (by simp) (by norm_num)
    (by norm_num) (by norm_num)

/-! ### Path obfuscation (lines 100-106 of encrypt.py) -/

/-- Lowercase hex digit for `n < 16`, as `hexdigest()` produces them. -/
def hexChar (n : Nat) : Char :=
  if n < 10 then Char.ofNat (48 + n) else Char.ofNat (87 + n)

/-- Two lowercase hex digits of one byte. -/
def byteToHex (b : Nat) : List Char :=
  [hexChar (b / 16), hexChar (b % 16)]

/-- `hexdigest()` of a digest given as its byte list. -/
def hexdigest (digest : List Nat) : String :=
  ⟨(digest.map byteToHex).flatten⟩

/-- UTF-8 encoding of one Unicode code point. -/
def utf8Char (ch : Char) : List Nat :=
  let n := ch.toNat
  if n < 128 then [n]
  else if n < 2048 then [192 + n / 64, 128 + n % 64]
  else if n < 65536 then [224 + n / 4096, 128 + n / 64 % 64, 128 + n % 64]
  else [240 + n / 262144, 128 + n / 4096 % 64, 128 + n / 64 % 64,
    128 + n % 64]

/-- `s.encode("UTF-8")` for a Python string modelled as a Lean `String`. -/
def utf8Bytes (s : String) : List Nat :=
  (s.data.map utf8Char).flatten

/-- One byte of Python's `repr` of a `bytes` object, with quote delimiter
byte `delim`: printable ASCII is shown literally, backslash and the
delimiter are backslash-escaped, tab, newline and carriage return are
two-character escapes, everything else is a four-character hex escape. -/
def pyByteEscape (delim b : Nat) : List Char :=
  if b = 92 then [Char.ofNat 92, Char.ofNat 92]
  else if b = delim then [Char.ofNat 92, Char.ofNat delim]
  else if b = 9 then [Char.ofNat 92, Char.ofNat 116]
  else if b = 10 then [Char.ofNat 92, Char.ofNat 110]
  else if b = 13 then [Char.ofNat 92, Char.ofNat 114]
  else if 32 ≤ b ∧ b < 127 then [Char.ofNat b]
  else [Char.ofNat 92, Char.ofNat 120, hexChar (b / 16), hexChar (b % 16)]

/-- `str(bs)` for a Python `bytes` object `bs`: the letter `b` followed by
the quoted escaped bytes.  The delimiter is a single quote unless the
bytes contain a single quote and no double quote. -/
def pyBytesRepr (bs : List Nat) : String :=
  let delim : Nat := if 39 ∈ bs ∧ ¬ 34 ∈ bs then 34 else 39
  ⟨Char.ofNat 98 :: Char.ofNat delim ::
    ((bs.map (pyByteEscape delim)).flatten ++ [Char.ofNat delim])⟩

/-- `salted_path = (str(os.urandom(16)) + real_filepath).encode("UTF-8")`
 (line 102 of encrypt.py), for salt bytes `salt` and path `p`: note that
the Python code converts the `bytes` object to its string representation
before concatenating. -/
def saltedPath (salt : List Nat) (p : String) : List Nat :=
  utf8Bytes (pyBytesRepr salt ++ p)

/-- The digest input asserted by the claim and spec section 4.2: the raw
salt bytes themselves prepended to the UTF-8 bytes of the path. -/
def saltedPathSpec (salt : List Nat) (p : String) : List Nat :=
  salt ++ utf8Bytes p

/-- `unique_name = hashlib.sha512(salted_path).hexdigest()` (line 104).
The SHA-512 compression itself is abstracted as `sha2_512`, a function
producing a 64-byte digest (64 bytes is the fixed SHA-512 digest size). -/
def pseudonym (sha2_512 : List Nat → List Nat) (salt : List Nat)
    (p : String) : String :=
  hexdigest (sha2_512 (saltedPath salt p))

/-- Lines 100-106 of encrypt.py as one step: produce the obscured name
and the mapping entry `filenames_map[unique_name] = real_filepath`.
The step is total: the source has no failure path. -/
def obfuscateStep (sha2_512 : List Nat → List Nat) (salt : List Nat)
    (p : String) : String × String :=
  (pseudonym sha2_512 salt p, p)

/-- Modelled from the spec: `PathObfuscator.obfuscate` as spec section 4.2
describes it, failing with `EmptyPathError` when the path is empty (this
error-raising variant exists only in the spec, not in src/). -/
def obfuscateStepSpec (sha2_512 : List Nat → List Nat) (salt : List Nat)
    (p : String) : Except String (String × String) :=
  if p = "" then Except.error "EmptyPathError"
  else Except.ok (pseudonym sha2_512 salt p, p)

/-- The sixteen characters a lowercase hex string is made of. -/
def lowerHexChars : List Char := "0123456789abcdef".data

theorem hexChar_mem : ∀ n, n < 16 → hexChar n ∈ lowerHexChars := by decide

theorem hexdigest_length (ds : List Nat) :
    (hexdigest ds).length = 2 * ds.length := by
  show ((ds.map byteToHex).flatten).length = 2 * ds.length
  induction ds with
  | nil => rfl
  | cons b rest ih =>
    simp only [List.map_cons, List.flatten_cons, List.length_append, ih,
      byteToHex, List.length_cons, List.length_nil, List.length_cons]
    omega

theorem hexdigest_chars (ds : List Nat) (h : ∀ b ∈ ds, b < 256) :
    ∀ ch ∈ (hexdigest ds).data, ch ∈ lowerHexChars := by
  show ∀ ch ∈ (ds.map byteToHex).flatten, ch ∈ lowerHexChars
  induction ds with
  | nil => intro ch hch; simp at hch
  | cons b rest ih =>
    intro ch hch
    have hb : b < 256 := h b (List.mem_cons_self b rest)
    simp only [List.map_cons, List.flatten_cons, List.mem_append] at hch
    rcases hch with hch | hch
    · simp only [byteToHex, List.mem_cons, List.not_mem_nil, or_false] at hch
      rcases hch with hch | hch <;> rw [hch]
      · exact hexChar_mem (b / 16) (by omega)
      · exact hexChar_mem (b % 16) (by omega)
    · exact ih (fun x hx => h x (List.mem_cons_of_mem _ hx)) ch hch

theorem pseudonym_hex (sha2_512 : List Nat → List Nat) (salt : List Nat)
    (p : String) (hlen : ∀ x, (sha2_512 x).length = 64)
    (hrange : ∀ x b, b ∈ sha2_512 x → b < 256) :
    (pseudonym sha2_512 salt p).length = 128 ∧
      ∀ ch ∈ (pseudonym sha2_512 salt p).data, ch ∈ lowerHexChars := by
  constructor
  · show (hexdigest (sha2_512 (saltedPath salt p))).length = 128
    rw [hexdigest_length, hlen]
  · exact hexdigest_chars _ (hrange (saltedPath salt p))

theorem utf8Bytes_append (a b : String) :
    utf8Bytes (a ++ b) = utf8Bytes a ++ utf8Bytes b := by
  show ((a ++ b).data.map utf8Char).flatten = _
  rw [String.data_append, List.map_append, List.flatten_append]
  rfl

set_option maxRecDepth 8192 in
/-- C4 (counterexample): the pseudonym is not a 64-character string.  The
digest is SHA-512, whose digest size is 64 bytes (modelled by a stub
64-byte digest function here), so the hex pseudonym has 128 characters. -/
theorem claim_C4_counterexample :
    (pseudonym (fun _ => List.replicate 64 0) (List.replicate 16 0)
      "a.txt").length ≠ 64 := by decide

/-- C4 (amended): for every file processed in a run, the pseudonym used as
the encrypted output file name is a 128-character (not 64-character)
lowercase hexadecimal string: the fixed-length hex encoding of the 64-byte
SHA-512 digest. -/
theorem claim_C4_pseudonym_hex128 (sha2_512 : List Nat → List Nat)
    (salt : List Nat) (p : String)
    (hlen : ∀ x, (sha2_512 x).length = 64)
    (hrange : ∀ x b, b ∈ sha2_512 x → b < 256) :
    (pseudonym sha2_512 salt p).length = 128 ∧
      ∀ ch ∈ (pseudonym sha2_512 salt p).data, ch ∈ lowerHexChars :=
  pseudonym_hex sha2_512 salt p hlen hrange

theorem claim_C4_witness :
    (pseudonym (fun _ => List.replicate 64 7) [] "a.txt").length = 128 ∧
      ∀ ch ∈ (pseudonym (fun _ => List.replicate 64 7) [] "a.txt").data,
        ch ∈ lowerHexChars :=
  claim_C4_pseudonym_hex128 (fun _ => List.replicate 64 7) [] "a.txt"
    (fun _ => by simp)
    (fun _ b hb => by simp [List.mem_replicate] at hb; omega)

set_option maxRecDepth 8192 in
/-- C7 (counterexample): the digest input is not the raw salt bytes
prepended to the path bytes.  At the all-zero 16-byte salt and path
"a.txt", the code's digest input (UTF-8 bytes of the Python string
representation of the bytes object, then the path bytes) differs from the
claimed one, and with a 64-byte digest function that keeps the first 64
input bytes the two pseudonyms differ as well. -/
theorem claim_C7_counterexample :
    saltedPath (List.replicate 16 0) "a.txt" ≠
      saltedPathSpec (List.replicate 16 0) "a.txt" ∧
    pseudonym (fun x => (x ++ List.replicate 64 0).take 64)
        (List.replicate 16 0) "a.txt" ≠
      hexdigest ((fun x => (x ++ List.replicate 64 0).take 64)
        (saltedPathSpec (List.replicate 16 0) "a.txt")) := by
  constructor <;> decide


/-- C7 (amended): for every call deriving a pseudonym for a real relative
path `p`, the pseudonym equals the fixed-length (128-character) lowercase
hexadecimal encoding of the 64-byte digest applied to the concatenation of
the UTF-8 bytes of the Python string representation of the fresh 16-byte
salt `bytes` object — not the raw salt bytes themselves — with the UTF-8
bytes of `p`. -/
theorem claim_C7_pseudonym_derivation (sha2_512 : List Nat → List Nat)
    (salt : List Nat) (p : String)
    (hlen : ∀ x, (sha2_512 x).length = 64)
    (hrange : ∀ x b, b ∈ sha2_512 x → b < 256) :
    pseudonym sha2_512 salt p =
      hexdigest (sha2_512 (utf8Bytes (pyBytesRepr salt) ++ utf8Bytes p)) ∧
    (pseudonym sha2_512 salt p).length = 128 ∧
    ∀ ch ∈ (pseudonym sha2_512 salt p).data, ch ∈ lowerHexChars := by
  refine ⟨?_, pseudonym_hex sha2_512 salt p hlen hrange⟩
  show hexdigest (sha2_512 (saltedPath salt p)) = _
  rw [saltedPath, utf8Bytes_append]

theorem claim_C7_witness :
    pseudonym (fun _ => List.replicate 64 7) (List.replicate 16 0) "b.bin" =
      hexdigest ((fun _ => List.replicate 64 7)
        (utf8Bytes (pyBytesRepr (List.replicate 16 0)) ++
          utf8Bytes "b.bin")) ∧
    (pseudonym (fun _ => List.replicate 64 7) (List.replicate 16 0)
      "b.bin").length = 128 ∧
    ∀ ch ∈ (pseudonym (fun _ => List.replicate 64 7) (List.replicate 16 0)
      "b.bin").data, ch ∈ lowerHexChars :=
  claim_C7_pseudonym_derivation (fun _ => List.replicate 64 7)
    (List.replicate 16 0) "b.bin" (fun _ => by simp)
    (fun _ b hb => by simp [List.mem_replicate] at hb; omega)

/-- C8 (counterexample): on the empty path the code's obfuscation step
does not fail: it returns a pseudonym and a mapping entry, unlike the
spec-modelled variant, which returns `EmptyPathError`. -/
theorem claim_C8_counterexample :
    obfuscateStepSpec (fun _ => List.replicate 64 0) (List.replicate 16 0)
        "" = Except.error "EmptyPathError" ∧
    Except.ok (obfuscateStep (fun _ => List.replicate 64 0)
        (List.replicate 16 0) "") ≠
      obfuscateStepSpec (fun _ => List.replicate 64 0)
        (List.replicate 16 0) "" := by
  refine ⟨rfl, ?_⟩
  simp [obfuscateStepSpec]

/-- C8 (amended): for the empty-string input path the code's
path-obfuscation step does not fail; it silently produces a well-formed
128-character lowercase-hex pseudonym and a mapping entry whose recorded
real path is the empty string. -/
theorem claim_C8_empty_path (sha2_512 : List Nat → List Nat)
    (salt : List Nat) (hlen : ∀ x, (sha2_512 x).length = 64)
    (hrange : ∀ x b, b ∈ sha2_512 x → b < 256) :
    obfuscateStep sha2_512 salt "" = (pseudonym sha2_512 salt "", "") ∧
    (pseudonym sha2_512 salt "").length = 128 ∧
    ∀ ch ∈ (pseudonym sha2_512 salt "").data, ch ∈ lowerHexChars :=
  ⟨rfl, pseudonym_hex sha2_512 salt "" hlen hrange⟩

theorem claim_C8_witness :
    obfuscateStep (fun _ => List.replicate 64 7) (List.replicate 16 1) "" =
      (pseudonym (fun _ => List.replicate 64 7) (List.replicate 16 1) "",
        "") ∧
    (pseudonym (fun _ => List.replicate 64 7)
      (List.replicate 16 1) "").length = 128 ∧
    ∀ ch ∈ (pseudonym (fun _ => List.replicate 64 7)
      (List.replicate 16 1) "").data, ch ∈ lowerHexChars :=
  claim_C8_empty_path (fun _ => List.replicate 64 7) (List.replicate 16 1)
    (fun _ => by simp)
    (fun _ b hb => by simp [List.mem_replicate] at hb; omega)

/-! ### `filename.replace(args.source, "")` (line 100 of encrypt.py) -/

/-- Whether `pat` is an initial segment of `s`. -/
def listStartsWith : List Char → List Char → Bool
  | [], _ => true
  | _ :: _, [] => false
  | p :: ps, s :: ss => p == s && listStartsWith ps ss

/-- Recursion core of `removeAll`: scan left to right, removing each
occurrence of `pat` and restarting after its end (Python's
non-overlapping `str.replace` semantics with empty replacement).  The
fuel is instantiated with the length of the string. -/
def removeAllGo (pat : List Char) : Nat → List Char → List Char
  | _, [] => []
  | 0, s => s
  | fuel + 1, ch :: rest =>
    if listStartsWith pat (ch :: rest) then
      removeAllGo pat fuel ((ch :: rest).drop pat.length)
    else ch :: removeAllGo pat fuel rest

/-- Python's `s.replace(pat, "")`: removes every non-overlapping
occurrence of `pat` from `s`, scanning left to right (for an empty
pattern and empty replacement Python returns `s` unchanged). -/
def removeAll (pat s : List Char) : List Char :=
  if pat.isEmpty then s else removeAllGo pat s.length s

/-- Whether `pat` occurs as a contiguous run anywhere in the string. -/
def containsPat (pat : List Char) : List Char → Bool
  | [] => listStartsWith pat []
  | ch :: rest => listStartsWith pat (ch :: rest) || containsPat pat rest

/-- `real_filepath = filename.replace(args.source, "")` (line 100 of
encrypt.py): every occurrence of the source root string is removed, not
only a leading one. -/
def real_filepath (source filename : String) : String :=
  ⟨removeAll source.data filename.data⟩

/-- What C5 asserts the recorded path to be: the filename with exactly
one leading occurrence of the source root removed, remainder intact. -/
def relativeToRoot (root p : List Char) : List Char :=
  if listStartsWith root p then p.drop root.length else p

theorem removeAllGo_no_occur (pat : List Char) :
    ∀ fuel s, containsPat pat s = false → removeAllGo pat fuel s = s := by
  intro fuel
  induction fuel with
  | zero => intro s _; cases s <;> rfl
  | succ fuel ih =>
    intro s h
    cases s with
    | nil => rfl
    | cons ch rest =>
      simp only [containsPat, Bool.or_eq_false_iff] at h
      simp only [removeAllGo, h.1, Bool.false_eq_true, if_false]
      rw [ih rest h.2]

theorem listStartsWith_refl_append :
    ∀ a b : List Char, listStartsWith a (a ++ b) = true := by
  intro a
  induction a with
  | nil => intro b; rfl
  | cons p ps ih =>
    intro b
    simp only [List.cons_append, listStartsWith, beq_self_eq_true,
      Bool.true_and, List.append_eq, ih]

theorem listStartsWith_decomp :
    ∀ a b : List Char, listStartsWith a b = true →
      b = a ++ b.drop a.length := by
  intro a
  induction a with
  | nil => intro b _; rfl
  | cons p ps ih =>
    intro b h
    cases b with
    | nil => simp [listStartsWith] at h
    | cons x xs =>
      simp only [listStartsWith, Bool.and_eq_true, beq_iff_eq] at h
      rw [h.1] at *
      have := ih xs h.2
      simp only [List.length_cons, List.drop_succ_cons, List.cons_append]
      exact congrArg (x :: ·) this

theorem removeAll_prefix (pat rest : List Char) (hne : pat ≠ [])
    (hno : containsPat pat rest = false) :
    removeAll pat (pat ++ rest) = rest := by
  cases pat with
  | nil => exact absurd rfl hne
  | cons p ps =>
    show removeAll (p :: ps) (p :: (ps ++ rest)) = rest
    unfold removeAll
    simp only [List.isEmpty_cons, if_false, Bool.false_eq_true]
    show removeAllGo (p :: ps) ((ps ++ rest).length + 1) (p :: (ps ++ rest))
      = rest
    simp only [removeAllGo]
    have hstart : listStartsWith (p :: ps) (p :: (ps ++ rest)) = true :=
      listStartsWith_refl_append (p :: ps) rest
    simp only [hstart, if_true]
    simp only [List.length_cons, List.drop_succ_cons, List.drop_left]
    exact removeAllGo_no_occur (p :: ps) _ rest hno

/-- C5 (counterexample): for source root "/a" and discovered file
"/a/x/a", the path relative to the root is "/x/a", but the code records
"/x": `str.replace` removes the non-prefix occurrence of "/a" too. -/
theorem claim_C5_counterexample :
    relativeToRoot "/a".data "/a/x/a".data = "/x/a".data ∧
    (real_filepath "/a" "/a/x/a").data ≠
      relativeToRoot "/a".data "/a/x/a".data := by
  constructor <;> decide

/-- C5 (amended): the recorded path is the filename with every
left-to-right non-overlapping occurrence of the source-root string
removed; this equals the path relative to the source root (the leading
prefix removed, remainder intact) precisely for filenames in which the
source root does not reoccur after the leading prefix. -/
theorem claim_C5_relative_path (source filename : String)
    (hne : source.data ≠ [])
    (hpre : listStartsWith source.data filename.data = true)
    (hno : containsPat source.data
      (filename.data.drop source.data.length) = false) :
    (real_filepath source filename).data =
      filename.data.drop source.data.length := by
  show removeAll source.data filename.data = _
  conv_lhs => rw [listStartsWith_decomp source.data filename.data hpre]
  exact removeAll_prefix source.data _ hne hno

theorem claim_C5_witness :
    (real_filepath "/a" "/a/x/b").data =
      "/a/x/b".data.drop "/a".data.length :=
  claim_C5_relative_path "/a" "/a/x/b" (by decide) (by decide) (by decide)

/-! ### Output path formation (line 36 and lines 128-129 of encrypt.py) -/

/-- `open(out_dir + out_filename, 'wb')` (line 36) and
`open(args.destination + "aes_secret", "wb")` (line 128): the output path
is the plain string concatenation, no separator inserted. -/
def outPath (out_dir out_filename : String) : String :=
  out_dir ++ out_filename

/-- `os.path.dirname`-style parent of a path: everything before the last
separator (empty when there is none). -/
def dirname (p : List Char) : List Char :=
  ((p.reverse.dropWhile (fun ch => ch != '/')).drop 1).reverse

theorem dropWhile_append_of_all (p : Char → Bool) :
    ∀ l₁ l₂ : List Char, (∀ x ∈ l₁, p x = true) →
      (l₁ ++ l₂).dropWhile p = l₂.dropWhile p := by
  intro l₁
  induction l₁ with
  | nil => intro l₂ _; rfl
  | cons a l ih =>
    intro l₂ h
    simp only [List.cons_append, List.dropWhile_cons,
      h a (List.mem_cons_self a l), if_true]
    exact ih l₂ (fun x hx => h x (List.mem_cons_of_mem _ hx))

/-- C9: each output path (per-file encrypted output, mapping artifact,
wrapped-key artifact) is formed by string-concatenating the destination
argument with the file name, no path separator inserted; consequently,
for a nonempty separator-free file name, the parent directory of the
written path names the destination exactly when the destination string
ends with a path separator. -/
theorem claim_C9_output_paths (d n : String)
    (hne : n.data ≠ []) (hsep : '/' ∉ n.data) :
    (outPath d n).data = d.data ++ n.data ∧
    (dirname ((outPath d n).data) ++ ['/'] = d.data ↔
      ∃ d', d.data = d' ++ ['/']) := by
  have hdata : (outPath d n).data = d.data ++ n.data :=
    String.data_append d n
  refine ⟨hdata, ?_, ?_⟩
  · intro h
    exact ⟨dirname ((outPath d n).data), h.symm⟩
  · rintro ⟨d', hd⟩
    rw [hdata, hd]
    suffices hsuf : dirname ((d' ++ ['/']) ++ n.data) = d' by rw [hsuf]
    unfold dirname
    have h1 : ((d' ++ ['/']) ++ n.data).reverse =
        n.data.reverse ++ ('/' :: d'.reverse) := by
      simp [List.reverse_append]
    rw [h1, dropWhile_append_of_all _ _ _ ?side]
    case side =>
      intro x hx
      have hxn : x ∈ n.data := List.mem_reverse.mp hx
      have : x ≠ '/' := fun hc => hsep (hc ▸ hxn)
      simp [bne_iff_ne, this]
    simp [List.dropWhile_cons]

theorem claim_C9_witness :
    (outPath "dest/" "x").data = "dest/".data ++ "x".data ∧
    (dirname ((outPath "dest/" "x").data) ++ ['/'] = "dest/".data ↔
      ∃ d', "dest/".data = d' ++ ['/']) :=
  claim_C9_output_paths "dest/" "x" (by decide) (by decide)

/-! ### The orchestration loop of `main` (lines 92-129 of encrypt.py) -/

/-- Observable file-system and crypto events of one run of `main`:
`encFile key path` models a successful `encrypt_file(key, ..)` call
writing `path`; `clearWrite` a cleartext write; `removeFile` an
`os.remove`; `wrapKey secret path` the RSA-OAEP wrapped-key write. -/
inductive Ev where
  | encFile : List Nat → String → Ev
  | clearWrite : String → Ev
  | removeFile : String → Ev
  | wrapKey : List Nat → String → Ev
deriving DecidableEq

/-- Per-file loop of `main` (lines 96-113): each discovered file is
encrypted under the run key to `destination + pseudonym`; when the
destination equals the source the original is removed afterwards.
`nameOf` abstracts the salted pseudonym, `ok` tells whether
`encrypt_file` succeeds on a file; on the first failure the uncaught
exception aborts the loop (second component `false`), and for that file
no removal happens. -/
def runFilesTrace (source destination : String) (key : List Nat)
    (nameOf : String → String) (ok : String → Bool) :
    List String → List Ev × Bool
  | [] => ([], true)
  | f :: fs =>
    if ok f then
      let tail := runFilesTrace source destination key nameOf ok fs
      ((Ev.encFile key (outPath destination (nameOf f)) ::
        (if source = destination then [Ev.removeFile f] else [])) ++
          tail.1, tail.2)
    else ([], false)

/-- `json_tmp_path = "/tmp/" + json_map_name` (lines 116-117). -/
def jsonTmpPath : String := "/tmp/" ++ "filenames_map"

/-- Whole-run event trace of `main` (lines 92-129): the per-file loop,
then the cleartext JSON dump of the mapping, its encryption into the
destination, removal of the cleartext temporary, and the wrapped-key
write.  If the loop aborted, the uncaught exception ends the run there. -/
def mainTrace (source destination : String) (key : List Nat)
    (nameOf : String → String) (ok : String → Bool)
    (files : List String) : List Ev :=
  let r := runFilesTrace source destination key nameOf ok files
  if r.2 then
    r.1 ++ [Ev.clearWrite jsonTmpPath,
      Ev.encFile key (outPath destination "filenames_map"),
      Ev.removeFile jsonTmpPath,
      Ev.wrapKey key (outPath destination "aes_secret")]
  else r.1

/-- The path written by an event, if it writes one. -/
def evWritePath : Ev → Option String
  | Ev.encFile _ p => some p
  | Ev.clearWrite p => some p
  | Ev.removeFile _ => none
  | Ev.wrapKey _ p => some p

/-- C3: in the per-file loop, an original file is removed only when the
destination equals the source and `encrypt_file` succeeded on that very
file, and the removal event directly follows that file's successful
output write (never before it); in particular when the destination
differs from the source, and whenever `encrypt_file` raises on a file,
no original is removed. -/
theorem claim_C3_delete_after_success (source destination : String)
    (key : List Nat) (nameOf : String → String) (ok : String → Bool) :
    ∀ (files : List String) (p : String) (pre post : List Ev),
      (runFilesTrace source destination key nameOf ok files).1 =
        pre ++ Ev.removeFile p :: post →
      source = destination ∧ ok p = true ∧
        pre.getLast? =
          some (Ev.encFile key (outPath destination (nameOf p))) := by
  intro files
  induction files with
  | nil =>
    intro p pre post h
    simp [runFilesTrace] at h
  | cons f fs ih =>
    intro p pre post h
    by_cases hok : ok f
    · by_cases hsd : source = destination
      · simp only [runFilesTrace, hok, if_true, if_pos hsd,
          List.cons_append, List.singleton_append] at h
        cases pre with
        | nil => simp at h
        | cons e pre' =>
          simp only [List.cons_append, List.cons.injEq] at h
          obtain ⟨he, h2⟩ := h
          cases pre' with
          | nil =>
            simp only [List.nil_append, List.cons.injEq] at h2
            obtain ⟨hf, _⟩ := h2
            injection hf with hfp
            subst hfp
            exact ⟨hsd, hok, by simp [← he]⟩
          | cons e' pre'' =>
            simp only [List.cons_append, List.cons.injEq] at h2
            obtain ⟨he', h3⟩ := h2
            obtain ⟨hsd', hok', hlast⟩ := ih p pre'' post h3
            refine ⟨hsd', hok', ?_⟩
            cases pre'' with
            | nil => simp at hlast
            | cons x pre''' =>
              rw [List.getLast?_cons_cons, List.getLast?_cons_cons]
              exact hlast
      · simp only [runFilesTrace, hok, if_true, if_neg hsd,
          List.append_nil, List.cons_append] at h
        cases pre with
        | nil => simp at h
        | cons e pre' =>
          simp only [List.cons_append, List.cons.injEq] at h
          obtain ⟨_, h2⟩ := h
          obtain ⟨hsd', _, _⟩ := ih p pre' post h2
          exact absurd hsd' hsd
    · simp only [runFilesTrace, hok, if_false] at h
      simp at h

theorem claim_C3_witness :
    ("s/" : String) = "s/" ∧ (fun _ => true) ("s/a" : String) = true ∧
      ([Ev.encFile [0] (outPath "s/" "N")] : List Ev).getLast? =
        some (Ev.encFile [0] (outPath "s/" "N")) :=
  claim_C3_delete_after_success "s/" "s/" [0] (fun _ => "N")
    (fun _ => true) ["s/a"] "s/a" [Ev.encFile [0] (outPath "s/" "N")] []
    (by decide)

theorem runFilesTrace_all_ok (source destination : String) (key : List Nat)
    (nameOf : String → String) :
    ∀ files, (runFilesTrace source destination key nameOf
      (fun _ => true) files).2 = true := by
  intro files
  induction files with
  | nil => rfl
  | cons f fs ih => simp [runFilesTrace, ih]

theorem runFilesTrace_mem_shape (source destination : String)
    (key : List Nat) (nameOf : String → String) :
    ∀ files e, e ∈ (runFilesTrace source destination key nameOf
        (fun _ => true) files).1 →
      (∃ f, f ∈ files ∧
        e = Ev.encFile key (outPath destination (nameOf f))) ∨
      (∃ f, f ∈ files ∧ e = Ev.removeFile f) := by
  intro files
  induction files with
  | nil => intro e he; simp [runFilesTrace] at he
  | cons f fs ih =>
    intro e he
    simp only [runFilesTrace, if_true, List.cons_append,
      List.mem_cons, List.mem_append] at he
    rcases he with he | he
    · exact Or.inl ⟨f, List.mem_cons_self f fs, he⟩
    · rcases he with he | he
      · by_cases hsd : source = destination
        · rw [if_pos hsd] at he
          simp only [List.mem_singleton] at he
          exact Or.inr ⟨f, List.mem_cons_self f fs, he⟩
        · rw [if_neg hsd] at he
          simp at he
      · rcases ih e he with ⟨g, hg, hge⟩ | ⟨g, hg, hge⟩
        · exact Or.inl ⟨g, List.mem_cons_of_mem _ hg, hge⟩
        · exact Or.inr ⟨g, List.mem_cons_of_mem _ hg, hge⟩

theorem runFilesTrace_mem_enc (source destination : String)
    (key : List Nat) (nameOf : String → String) :
    ∀ files, ∀ f ∈ files,
      Ev.encFile key (outPath destination (nameOf f)) ∈
        (runFilesTrace source destination key nameOf
          (fun _ => true) files).1 := by
  intro files
  induction files with
  | nil => intro f hf; simp at hf
  | cons g fs ih =>
    intro f hf
    simp only [runFilesTrace, if_true, List.cons_append, List.mem_cons,
      List.mem_append]
    rcases List.mem_cons.mp hf with hf | hf
    · exact Or.inl (by rw [hf])
    · exact Or.inr (Or.inr (ih f hf))

theorem mainTrace_ok_eq (source destination : String) (key : List Nat)
    (nameOf : String → String) (files : List String) :
    mainTrace source destination key nameOf (fun _ => true) files =
      (runFilesTrace source destination key nameOf
        (fun _ => true) files).1 ++
      [Ev.clearWrite jsonTmpPath,
        Ev.encFile key (outPath destination "filenames_map"),
        Ev.removeFile jsonTmpPath,
        Ev.wrapKey key (outPath destination "aes_secret")] := by
  simp [mainTrace, runFilesTrace_all_ok]

/-- C6: within one run (all files succeeding) a single 32-byte symmetric
key rules everything: every `encrypt_file` event — one per discovered
file, plus the serialized mapping artifact — uses the run key, and the
run's unique key-wrapping event seals exactly that key into the
fixed-name artifact `destination + "aes_secret"`.  The key models
`os.urandom(32)`, hence the 32-byte hypothesis. -/
theorem claim_C6_single_key (source destination : String) (key : List Nat)
    (nameOf : String → String) (files : List String)
    (hkey : key.length = 32) :
    (∀ k p, Ev.encFile k p ∈
        mainTrace source destination key nameOf (fun _ => true) files →
      k = key) ∧
    (∀ f ∈ files, Ev.encFile key (outPath destination (nameOf f)) ∈
      mainTrace source destination key nameOf (fun _ => true) files) ∧
    Ev.encFile key (outPath destination "filenames_map") ∈
      mainTrace source destination key nameOf (fun _ => true) files ∧
    (mainTrace source destination key nameOf
        (fun _ => true) files).filter
        (fun e => match e with | Ev.wrapKey _ _ => true | _ => false) =
      [Ev.wrapKey key (outPath destination "aes_secret")] := by
  have htr := mainTrace_ok_eq source destination key nameOf files
  refine ⟨?_, ?_, ?_, ?_⟩
  · intro k p hmem
    rw [htr] at hmem
    rcases List.mem_append.mp hmem with hmem | hmem
    · rcases runFilesTrace_mem_shape source destination key nameOf files _
        hmem with ⟨f, _, hfe⟩ | ⟨f, _, hfe⟩
      · simp only [Ev.encFile.injEq] at hfe
        exact hfe.1
      · exact absurd hfe (by simp)
    · simp only [List.mem_cons, List.not_mem_nil, or_false] at hmem
      rcases hmem with h | h | h | h
      · exact absurd h (by simp)
      · simp only [Ev.encFile.injEq] at h
        exact h.1
      · exact absurd h (by simp)
      · exact absurd h (by simp)
  · intro f hf
    rw [htr]
    exact List.mem_append_left _
      (runFilesTrace_mem_enc source destination key nameOf files f hf)
  · rw [htr]
    apply List.mem_append_right
    simp
  · rw [htr, List.filter_append]
    have hnil : (runFilesTrace source destination key nameOf
        (fun _ => true) files).1.filter
        (fun e => match e with | Ev.wrapKey _ _ => true | _ => false) =
        [] := by
      apply List.filter_eq_nil_iff.mpr
      intro a ha
      rcases runFilesTrace_mem_shape source destination key nameOf files a
        ha with ⟨f, _, hfe⟩ | ⟨f, _, hfe⟩ <;> subst hfe <;> simp
    rw [hnil]
    rfl

theorem claim_C6_witness :
    (∀ k p, Ev.encFile k p ∈
        mainTrace "s" "d" (List.replicate 32 0) (fun _ => "N")
          (fun _ => true) ["f"] →
      k = List.replicate 32 0) ∧
    (∀ f ∈ (["f"] : List String),
      Ev.encFile (List.replicate 32 0) (outPath "d" ((fun _ => "N") f)) ∈
        mainTrace "s" "d" (List.replicate 32 0) (fun _ => "N")
          (fun _ => true) ["f"]) ∧
    Ev.encFile (List.replicate 32 0) (outPath "d" "filenames_map") ∈
      mainTrace "s" "d" (List.replicate 32 0) (fun _ => "N")
        (fun _ => true) ["f"] ∧
    (mainTrace "s" "d" (List.replicate 32 0) (fun _ => "N")
        (fun _ => true) ["f"]).filter
        (fun e => match e with | Ev.wrapKey _ _ => true | _ => false) =
      [Ev.wrapKey (List.replicate 32 0) (outPath "d" "aes_secret")] :=
  claim_C6_single_key "s" "d" (List.replicate 32 0) (fun _ => "N") ["f"]
    (by simp)

/-- C10: in every completed run the pseudonym-to-path mapping is written
in cleartext to the fixed path `/tmp/filenames_map` — a constant
independent of the destination argument — then encrypted into the
destination, and the cleartext temporary is removed before the run
completes (the trace ends with exactly that dump/encrypt/remove sequence
followed by the wrapped-key write); every other path the run writes is
the destination string extended on the right. -/
theorem claim_C10_tmp_map_lifecycle (source destination : String)
    (key : List Nat) (nameOf : String → String) (files : List String) :
    (∃ pre, mainTrace source destination key nameOf
        (fun _ => true) files =
      pre ++ [Ev.clearWrite jsonTmpPath,
        Ev.encFile key (outPath destination "filenames_map"),
        Ev.removeFile jsonTmpPath,
        Ev.wrapKey key (outPath destination "aes_secret")]) ∧
    jsonTmpPath = "/tmp/filenames_map" ∧
    (∀ e ∈ mainTrace source destination key nameOf
        (fun _ => true) files,
      ∀ p, evWritePath e = some p →
        p = jsonTmpPath ∨ ∃ r, p = destination ++ r) := by
  have htr := mainTrace_ok_eq source destination key nameOf files
  refine ⟨⟨_, htr⟩, by decide, ?_⟩
  intro e he p hp
  rw [htr] at he
  rcases List.mem_append.mp he with he | he
  · rcases runFilesTrace_mem_shape source destination key nameOf files _
      he with ⟨f, _, hfe⟩ | ⟨f, _, hfe⟩
    · subst hfe
      injection hp with hp1
      exact Or.inr ⟨nameOf f, hp1.symm⟩
    · subst hfe
      exact absurd hp (by simp [evWritePath])
  · simp only [List.mem_cons, List.not_mem_nil, or_false] at he
    rcases he with h | h | h | h <;> subst h
    · injection hp with hp1
      exact Or.inl hp1.symm
    · injection hp with hp1
      exact Or.inr ⟨"filenames_map", hp1.symm⟩
    · exact absurd hp (by simp [evWritePath])
    · injection hp with hp1
      exact Or.inr ⟨"aes_secret", hp1.symm⟩
